import Mathlib

/-!
# Verification of the Affogato SQL-safety pipeline

A shallow embedding of the SQL-safety core of the repository:

* `src/api/endpoint/query.py` — `_validate_sql_query` (direct-SQL policy),
* `src/chains/sql_chain.py` — `_validate_generated_sql` (generated-SQL policy),
  `_clean_sql_output`, `_get_schema_info` (TTL schema cache),
  `natural_language_to_sql`,
* `src/services/database_service.py` — `execute_query` (row-limit
  injection), `get_table_info` (schema introspection).

Python strings are modelled as `List Char`; the relevant fragments of the
Python standard library (`str.strip`, `str.lower`, `str.upper`,
`str.count`, `str.rstrip`, `str.split`, the `re` word-boundary and fence
patterns used by the code) are given explicit executable definitions.
-/

namespace Affogato

/-- Shorthand: the character list of a string literal. -/
def toL (s : String) : List Char := s.toList

/-- Python `str.isspace` on the ASCII whitespace characters that
`str.strip()` removes. -/
def isSpacePy (c : Char) : Bool :=
  c == ' ' || c == '\t' || c == '\n' || c == '\r' || c == '\x0b' || c == '\x0c'

/-- Python `str.lower()` (per character). -/
def lowerStr (cs : List Char) : List Char := cs.map Char.toLower

/-- Python `str.upper()` (per character). -/
def upperStr (cs : List Char) : List Char := cs.map Char.toUpper

/-- Python `str.lstrip()`. -/
def stripL (cs : List Char) : List Char := cs.dropWhile isSpacePy

/-- Python `str.rstrip()`. -/
def stripR (cs : List Char) : List Char := (stripL cs.reverse).reverse

/-- Python `str.strip()`. -/
def strip (cs : List Char) : List Char := stripL (stripR cs)

/-- Python `pat in cs` (substring containment). -/
def containsSub (pat : List Char) : List Char → Bool
  | [] => pat.isEmpty
  | c :: rest => pat.isPrefixOf (c :: rest) || containsSub pat rest

/-- Helper for `countSub`: scan character by character; `skip` is the
number of positions still covered by the previous match (Python's scan
resumes after a matched occurrence). -/
def countSubAux (pat : List Char) : List Char → Nat → Nat
  | [], _ => 0
  | _ :: rest, n + 1 => countSubAux pat rest n
  | c :: rest, 0 =>
      if pat.isPrefixOf (c :: rest) then
        1 + countSubAux pat rest (pat.length - 1)
      else
        countSubAux pat rest 0

/-- Python `cs.count(pat)`: non-overlapping occurrences, scanned from the
left. -/
def countSub (pat cs : List Char) : Nat := countSubAux pat cs 0

/-- A regex word character (`\w`): alphanumeric or underscore. -/
def isWordChar (c : Char) : Bool := c.isAlphanum || c == '_'

/-- The keyword `kw` matches at the head of `cs` and is followed by a word
boundary (end of string or a non-word character). -/
def wordAt : List Char → List Char → Bool
  | [], [] => true
  | [], c :: _ => !isWordChar c
  | _ :: _, [] => false
  | k :: ks, c :: cs => k == c && wordAt ks cs

/-- Helper for `containsWord`: `prevW` records whether the character just
before the current position is a word character (the left boundary of
`\b`). -/
def containsWordAux (kw : List Char) : List Char → Bool → Bool
  | [], _ => false
  | c :: rest, prevW =>
      (!prevW && wordAt kw (c :: rest)) || containsWordAux kw rest (isWordChar c)

/-- Python `re.search(r"\b" + kw + r"\b", cs)` succeeds: `kw` occurs in
`cs` as a whole word. -/
def containsWord (kw cs : List Char) : Bool := containsWordAux kw cs false

/-! ## The two validation policies -/

/-- The `dangerous_patterns` keyword alternation of `_validate_sql_query`
(`src/api/endpoint/query.py`): nine mutating keywords. -/
def dangerousWords9 : List (List Char) :=
  [toL "drop", toL "delete", toL "update", toL "insert", toL "alter",
   toL "create", toL "truncate", toL "exec", toL "execute"]

/-- The `dangerous` list of `_validate_generated_sql`
(`src/chains/sql_chain.py`): seven mutating keywords (no `exec`/`execute`). -/
def dangerousWords7 : List (List Char) :=
  [toL "drop", toL "delete", toL "update", toL "insert", toL "alter",
   toL "create", toL "truncate"]

/-- Python `re.search(r";\s*(kw1|kw2|...)", cs)` succeeds: a semicolon,
optional whitespace, then one of the keywords as a prefix of the remainder
(no trailing word boundary in this pattern). -/
def semiThen (kws : List (List Char)) : List Char → Bool
  | [] => false
  | c :: rest =>
      (c == ';' && kws.any fun k => k.isPrefixOf (rest.dropWhile isSpacePy))
        || semiThen kws rest

/-- Python `re.search(r"/\*.*?\*/", cs, re.DOTALL)` succeeds: an opening
`/*` with a closing `*/` somewhere after it. -/
def hasBlockComment : List Char → Bool
  | [] => false
  | c :: rest =>
      ((toL "/*").isPrefixOf (c :: rest) && containsSub (toL "*/") (rest.drop 1))
        || hasBlockComment rest

/-- `\s+pat` matches at the head of `cs`: at least one whitespace
character, then `pat` (whose head is non-whitespace) as a prefix. -/
def wsPlusThen (pat : List Char) (cs : List Char) : Bool :=
  match cs with
  | [] => false
  | a :: _ => isSpacePy a && pat.isPrefixOf (cs.dropWhile isSpacePy)

/-- Python `re.search(r"union\s+select.*--", cs, re.DOTALL)` succeeds. -/
def unionSelectComment : List Char → Bool
  | [] => false
  | c :: rest =>
      ((toL "union").isPrefixOf (c :: rest)
        && wsPlusThen (toL "select") ((c :: rest).drop 5)
        && containsSub (toL "--") ((((c :: rest).drop 5).dropWhile isSpacePy).drop 6))
        || unionSelectComment rest

/-- `_validate_sql_query` (`src/api/endpoint/query.py`, the direct-SQL
policy): lowercase and strip, reject on any dangerous pattern, require a
`select` prefix, and reject more than two `select` substring occurrences
when a nested `select` is present. -/
def validate_sql_query (sql : List Char) : Bool :=
  let sqlL := strip (lowerStr sql)
  if dangerousWords9.any (fun w => containsWord w sqlL) then false
  else if semiThen dangerousWords9 sqlL then false
  else if containsSub (toL "--") sqlL then false
  else if hasBlockComment sqlL then false
  else if unionSelectComment sqlL then false
  else if semiThen [toL "shutdown"] sqlL then false
  else if !(toL "select").isPrefixOf sqlL then false
  else if containsSub (toL "select") (sqlL.drop 6)
          && decide (countSub (toL "select") sqlL > 2) then false
  else true

/-- `_validate_generated_sql` (`src/chains/sql_chain.py`, the
generated-SQL policy): lowercase and strip, require a `select` prefix, and
reject any of the seven dangerous keywords as a whole word. -/
def validate_generated_sql (sql : List Char) : Bool :=
  let sqlL := strip (lowerStr sql)
  if !(toL "select").isPrefixOf sqlL then false
  else if dangerousWords7.any (fun w => containsWord w sqlL) then false
  else true

/-! ## The output cleaner `_clean_sql_output` -/

/-- Split at the first occurrence of `pat`: `some (before, after)` with
`cs = before ++ pat ++ after`, or `none` when `pat` (nonempty) does not
occur. -/
def breakOn (pat : List Char) : List Char → Option (List Char × List Char)
  | [] => none
  | c :: rest =>
      if pat.isPrefixOf (c :: rest) then
        some ([], (c :: rest).drop pat.length)
      else
        match breakOn pat rest with
        | some (a, b) => some (c :: a, b)
        | none => none

/-- Python `cs.split(sep)[1]` for a separator known to occur: the text
between the first and the second occurrence of `sep` (to the end when
there is no second occurrence). -/
def splitPart1 (sep : List Char) (cs : List Char) : List Char :=
  match breakOn sep cs with
  | some (_, r) =>
      match breakOn sep r with
      | some (a, _) => a
      | none => r
  | none => cs

/-- The characters before the first occurrence of ```` ``` ````, when one
exists: the interior of a lazy `(.*?)` up to the closing fence. -/
def splitAtTicks : List Char → Option (List Char)
  | [] => none
  | c :: rest =>
      if (toL "```").isPrefixOf (c :: rest) then some []
      else
        match splitAtTicks rest with
        | some inner => some (c :: inner)
        | none => none

/-- `pat` (itself lowercase) matches case-insensitively at the head of
`cs`. -/
def ciPrefix (pat : List Char) (cs : List Char) : Bool :=
  pat.isPrefixOf (lowerStr cs)

/-- Python `re.search(r"```sql\s*(.*?)\s*```", cs, re.DOTALL | re.IGNORECASE)`:
the (unstripped) group of the leftmost match, i.e. the text between the
first case-insensitive ```` ```sql ```` that has a closing fence and that
closing fence.  (The `\s*` paddings are absorbed by the later `strip`.) -/
def extractSqlFence : List Char → Option (List Char)
  | [] => none
  | c :: rest =>
      if ciPrefix (toL "```sql") (c :: rest) then
        splitAtTicks ((c :: rest).drop 6)
      else
        extractSqlFence rest

/-- Python `re.search(r"```\s*(.*?)\s*```", cs, re.DOTALL)`: the group of
the leftmost generic fenced block. -/
def extractFence : List Char → Option (List Char)
  | [] => none
  | c :: rest =>
      if (toL "```").isPrefixOf (c :: rest) then
        splitAtTicks ((c :: rest).drop 3)
      else
        extractFence rest

/-- The reasoning-tag stage of `_clean_sql_output`: when both `<think>`
and `</think>` occur, keep (stripped) `result.split("</think>")[1]`. -/
def thinkStrip (r0 : List Char) : List Char :=
  if containsSub (toL "<think>") r0 && containsSub (toL "</think>") r0 then
    strip (splitPart1 (toL "</think>") r0)
  else r0

/-- The fence-extraction stage of `_clean_sql_output`: the stripped
interior of an ` ```sql ` fence, else of a generic fence, else the whole
text. -/
def fenceExtract (r1 : List Char) : List Char :=
  match extractSqlFence r1 with
  | some inner => strip inner
  | none =>
      match extractFence r1 with
      | some inner => strip inner
      | none => r1

/-- `_clean_sql_output` (`src/chains/sql_chain.py`): strip, drop a
`<think>…</think>` reasoning prefix, then extract the interior of an
` ```sql ` fence, else of a generic fence, else return the whole text. -/
def clean_sql_output (raw : List Char) : List Char :=
  fenceExtract (thinkStrip (strip raw))

/-! ## The database service (`src/services/database_service.py`) -/

/-- The per-table column formatting of `get_table_info`:
`"<col> (<type>), ..."`. -/
def formatColumns (cols : List (List Char × List Char)) : List Char :=
  List.intercalate (toL ", ")
    (cols.map fun p => p.1 ++ toL " (" ++ p.2 ++ toL ")")

/-- One table's section in `get_table_info`: the normal block when the
table's `DESCRIBE` succeeds, the placeholder block when it raises. -/
def tableSection (describe : List Char → Option (List (List Char × List Char)))
    (name : List Char) : List Char :=
  match describe name with
  | some cols => toL "Table: " ++ name ++ toL "\nColumns: " ++ formatColumns cols
  | none => toL "Table: " ++ name ++ toL "\nColumns: [Error retrieving schema]"

/-- `get_table_info` (`src/services/database_service.py`).  `conn` is the
outcome of establishing the connection and listing the tables (`SHOW
TABLES`); `describe` is the per-table introspection (`none` = the describe
call raises).  A whole-fetch failure is caught and turned into the string
`"Error retrieving schema: <e>"`; the function never raises. -/
def get_table_info (conn : Except (List Char) (List (List Char)))
    (describe : List Char → Option (List (List Char × List Char))) : List Char :=
  match conn with
  | Except.error e => toL "Error retrieving schema: " ++ e
  | Except.ok tables =>
      if tables.isEmpty then toL "No tables found in database."
      else List.intercalate (toL "\n\n") (tables.map (tableSection describe))

/-- Python `query.rstrip(';')`. -/
def rstripSemi (q : List Char) : List Char :=
  (q.reverse.dropWhile (fun c => c == ';')).reverse

/-- The appended clause ` LIMIT <n>` of `execute_query`. -/
def limitClause (n : Nat) : List Char := toL " LIMIT " ++ Nat.toDigits 10 n

/-- The row-limit injection of `execute_query`
(`src/services/database_service.py`): for a truthy `max_rows` and a SELECT
statement not already carrying a LIMIT, strip trailing semicolons and
append ` LIMIT <max_rows>`; otherwise leave the query unchanged. -/
def inject_limit (query : List Char) (maxRows : Nat) : List Char :=
  let qU := strip (upperStr query)
  if maxRows != 0 && (toL "SELECT").isPrefixOf qU
      && !((toL "LIMIT " ++ Nat.toDigits 10 maxRows).isSuffixOf qU)
      && !containsSub (toL "LIMIT") qU then
    rstripSemi query ++ limitClause maxRows
  else query

/-- `execute_query` (`src/services/database_service.py`): run the
(possibly limit-injected) query text against the store.  The store itself
is the consumed DataStore capability: a function from query text to rows. -/
def execute_query (store : List Char → List α) (query : List Char)
    (maxRows : Nat) : List α :=
  store (inject_limit query maxRows)

/-- Modelled from the spec: the consumed DataStore capability (§6) is
opaque; §4.4/§8 require that executing a statement ending in
` LIMIT k` materializes at most `k` rows.  A store with that property. -/
def StoreRespectsLimit (store : List Char → List α) : Prop :=
  ∀ q k, (store (q ++ limitClause k)).length ≤ k

/-! ## The schema cache and the generator (`src/chains/sql_chain.py`) -/

/-- The cache fields of `SQLChainManager`: `_cached_schema` and
`_schema_cache_time`. -/
structure ChainState where
  cached_schema : Option (List Char)
  schema_cache_time : Option Int
  deriving Repr, DecidableEq

/-- `_cache_ttl`: 300 seconds. -/
def cacheTTL : Int := 300

/-- `_get_schema_info` (`src/chains/sql_chain.py`): return the cached
schema while it is fresh, else refresh it from `get_table_info`; a failing
fetch is wrapped in `"Failed to retrieve schema info: ..."` and leaves the
cache unchanged.  Result: (outcome, new state, whether an underlying
introspection call was made). -/
def get_schema_info (st : ChainState) (now : Int)
    (fetch : Except (List Char) (List Char)) :
    Except (List Char) (List Char) × ChainState × Bool :=
  let refreshed : Except (List Char) (List Char) × ChainState × Bool :=
    match fetch with
    | Except.ok s => (Except.ok s, ChainState.mk (some s) (some now), true)
    | Except.error e =>
        (Except.error (toL "Failed to retrieve schema info: " ++ e), st, true)
  match st.cached_schema, st.schema_cache_time with
  | some s, some t =>
      if now - t > cacheTTL then refreshed else (Except.ok s, st, false)
  | _, _ => refreshed

/-- `natural_language_to_sql` (`src/chains/sql_chain.py`): take the schema
fetch outcome, invoke the generation chain once, clean the raw output and
validate it; any failure is wrapped in `"Failed to generate SQL query:
..."`.  Also returns how many generation calls were made (the code has no
retry loop: the chain is invoked exactly once on the success path of the
schema fetch). -/
def natural_language_to_sql (schemaFetch : Except (List Char) (List Char))
    (gen : List Char → List Char → List Char) (question : List Char) :
    Except (List Char) (List Char) × Nat :=
  match schemaFetch with
  | Except.error e => (Except.error (toL "Failed to generate SQL query: " ++ e), 0)
  | Except.ok schema =>
      let cleaned := clean_sql_output (gen schema question)
      if validate_generated_sql cleaned then (Except.ok cleaned, 1)
      else
        (Except.error
          (toL "Failed to generate SQL query: Generated SQL failed validation"), 1)

/-- The NLQ branch of the `/query` endpoint (`src/api/endpoint/query.py`):
generate SQL, then execute it; when generation raises, the generic handler
produces an HTTP 500 with detail `"Query execution failed: ..."` and the
executor is never invoked.  Returns (outcome, generation calls, execution
calls). -/
def run_nlq_query (schemaFetch : Except (List Char) (List Char))
    (gen : List Char → List Char → List Char) (question : List Char)
    (store : List Char → List α) (maxRows : Nat) :
    Except (List Char) (List α) × Nat × Nat :=
  match natural_language_to_sql schemaFetch gen question with
  | (Except.error e, g) =>
      (Except.error (toL "Query execution failed: " ++ e), g, 0)
  | (Except.ok sql, g) => (Except.ok (execute_query store sql maxRows), g, 1)

/-- Whole-word occurrence count (used to state keyword-count facts about
the direct-SQL policy). -/
def countWordAux (kw : List Char) : List Char → Bool → Nat
  | [], _ => 0
  | c :: rest, prevW =>
      (if !prevW && wordAt kw (c :: rest) then 1 else 0)
        + countWordAux kw rest (isWordChar c)

/-- The number of whole-word occurrences of `kw` in `cs`. -/
def countWord (kw cs : List Char) : Nat := countWordAux kw cs false

/-! ## Toolkit: prefixes and substrings -/

theorem isPrefixOf_iff {p l : List Char} :
    p.isPrefixOf l = true ↔ ∃ t, l = p ++ t := by
  induction p generalizing l with
  | nil => simp [List.isPrefixOf]
  | cons a as ih =>
      cases l with
      | nil => simp [List.isPrefixOf]
      | cons b bs =>
          simp only [List.isPrefixOf, Bool.and_eq_true, beq_iff_eq, ih,
            List.cons_append, List.cons.injEq]
          constructor
          · rintro ⟨rfl, t, rfl⟩; exact ⟨t, rfl, rfl⟩
          · rintro ⟨t, rfl, rfl⟩; exact ⟨rfl, t, rfl⟩

theorem containsSub_iff {pat cs : List Char} :
    containsSub pat cs = true ↔ ∃ a b, cs = a ++ pat ++ b := by
  induction cs with
  | nil =>
      simp only [containsSub, List.isEmpty_iff]
      constructor
      · rintro rfl; exact ⟨[], [], rfl⟩
      · rintro ⟨a, b, h⟩
        rcases List.append_eq_nil.mp h.symm with ⟨h1, h2⟩
        exact (List.append_eq_nil.mp h1).2
  | cons c rest ih =>
      simp only [containsSub, Bool.or_eq_true, isPrefixOf_iff, ih]
      constructor
      · rintro (⟨t, ht⟩ | ⟨a, b, hab⟩)
        · exact ⟨[], t, by simpa using ht⟩
        · exact ⟨c :: a, b, by simp [hab]⟩
      · rintro ⟨a, b, hab⟩
        cases a with
        | nil => exact Or.inl ⟨b, by simpa using hab⟩
        | cons x xs =>
            simp only [List.cons_append, List.cons.injEq] at hab
            exact Or.inr ⟨xs, b, hab.2⟩

theorem containsSub_of_between {pat m cs : List Char} (a b : List Char)
    (hcs : cs = a ++ m ++ b) (h : containsSub pat m = true) :
    containsSub pat cs = true := by
  rcases containsSub_iff.mp h with ⟨x, y, rfl⟩
  exact containsSub_iff.mpr ⟨a ++ x, y ++ b, by simp [hcs]⟩

theorem containsSub_tail {pat : List Char} {c : Char} {rest : List Char}
    (h : containsSub pat (c :: rest) = false) :
    containsSub pat rest = false := by
  simp only [containsSub, Bool.or_eq_false_iff] at h
  exact h.2

theorem containsSub_self_append (pat b : List Char) :
    containsSub pat (pat ++ b) = true :=
  containsSub_iff.mpr ⟨[], b, rfl⟩

theorem not_containsSub_of_append {pat a b cs : List Char}
    (hcs : cs = a ++ pat ++ b) (h : containsSub pat cs = false) : False := by
  have htrue : containsSub pat cs = true := containsSub_iff.mpr ⟨a, b, hcs⟩
  rw [h] at htrue
  exact Bool.false_ne_true htrue

/-! ## Toolkit: stripping -/

theorem stripL_cons_ws {c : Char} (x : List Char) (h : isSpacePy c = true) :
    stripL (c :: x) = stripL x := by
  simp [stripL, List.dropWhile_cons, h]

theorem stripL_cons_not {c : Char} (x : List Char) (h : isSpacePy c = false) :
    stripL (c :: x) = c :: x := by
  simp [stripL, List.dropWhile_cons, h]

theorem stripL_append {a b : List Char} (c : Char) (d : List Char)
    (hb : b = c :: d) (hc : isSpacePy c = false) :
    stripL (a ++ b) = stripL a ++ b := by
  induction a with
  | nil => rw [List.nil_append, hb, stripL_cons_not d hc]; rfl
  | cons x xs ih =>
      by_cases hx : isSpacePy x = true
      · rw [List.cons_append, stripL_cons_ws _ hx, ih, stripL_cons_ws _ hx]
      · rw [Bool.not_eq_true] at hx
        rw [List.cons_append, stripL_cons_not _ hx, stripL_cons_not _ hx,
          List.cons_append]

theorem stripL_decomp (a : List Char) : ∃ t, a = t ++ stripL a := by
  induction a with
  | nil => exact ⟨[], rfl⟩
  | cons x xs ih =>
      by_cases hx : isSpacePy x = true
      · rcases ih with ⟨t, ht⟩
        exact ⟨x :: t, by rw [stripL_cons_ws _ hx, List.cons_append, ← ht]⟩
      · rw [Bool.not_eq_true] at hx
        exact ⟨[], by rw [stripL_cons_not _ hx]; rfl⟩

theorem stripL_idem (a : List Char) : stripL (stripL a) = stripL a := by
  induction a with
  | nil => rfl
  | cons x xs ih =>
      by_cases hx : isSpacePy x = true
      · rw [stripL_cons_ws _ hx, ih]
      · rw [Bool.not_eq_true] at hx
        rw [stripL_cons_not _ hx, stripL_cons_not _ hx]

theorem mem_of_mem_stripL {c : Char} {a : List Char} (h : c ∈ stripL a) :
    c ∈ a := by
  rcases stripL_decomp a with ⟨t, ht⟩
  rw [ht]
  exact List.mem_append_right t h

theorem stripR_decomp (a : List Char) : ∃ t, a = stripR a ++ t := by
  rcases stripL_decomp a.reverse with ⟨t, ht⟩
  refine ⟨t.reverse, ?_⟩
  have := congrArg List.reverse ht
  simpa [stripR] using this

theorem stripR_idem (a : List Char) : stripR (stripR a) = stripR a := by
  simp [stripR, stripL_idem]

theorem stripR_append {a b : List Char} (a' : List Char) (c : Char)
    (ha : a = a' ++ [c]) (hc : isSpacePy c = false) :
    stripR (a ++ b) = a ++ stripR b := by
  have hra : (a ++ b).reverse = b.reverse ++ (c :: a'.reverse) := by
    simp [ha]
  rw [stripR, hra, stripL_append c a'.reverse rfl hc]
  simp [stripR, ha]

theorem stripR_singleton (c : Char) :
    stripR [c] = if isSpacePy c then [] else [c] := by
  by_cases h : isSpacePy c = true
  · simp [stripR, stripL, List.dropWhile_cons, h]
  · rw [Bool.not_eq_true] at h
    simp [stripR, stripL, List.dropWhile_cons, h]

theorem stripL_append_single_of_nil {y : List Char} (c : Char)
    (h : stripL y = []) : stripL (y ++ [c]) = stripL [c] := by
  induction y with
  | nil => rfl
  | cons x xs ih =>
      by_cases hx : isSpacePy x = true
      · rw [stripL_cons_ws xs hx] at h
        rw [List.cons_append, stripL_cons_ws _ hx]
        exact ih h
      · rw [Bool.not_eq_true] at hx
        rw [stripL_cons_not xs hx] at h
        exact absurd h (by simp)

theorem stripL_append_single_of_ne {y : List Char} (c : Char)
    (h : stripL y ≠ []) : stripL (y ++ [c]) = stripL y ++ [c] := by
  induction y with
  | nil => exact absurd rfl h
  | cons x xs ih =>
      by_cases hx : isSpacePy x = true
      · rw [stripL_cons_ws xs hx] at h
        rw [List.cons_append, stripL_cons_ws _ hx, stripL_cons_ws xs hx]
        exact ih h
      · rw [Bool.not_eq_true] at hx
        rw [List.cons_append, stripL_cons_not _ hx, stripL_cons_not xs hx,
          List.cons_append]

theorem stripR_cons (c : Char) (z : List Char) :
    stripR (c :: z) = if stripR z = [] then stripR [c] else c :: stripR z := by
  have hrev : (c :: z).reverse = z.reverse ++ [c] := by simp
  by_cases hz : stripL z.reverse = []
  · have hz' : stripR z = [] := by simp [stripR, hz]
    rw [if_pos hz', stripR, hrev, stripL_append_single_of_nil c hz]
    rfl
  · have hne : stripR z ≠ [] := by
      simp only [stripR, ne_eq, List.reverse_eq_nil_iff]
      exact hz
    rw [if_neg hne, stripR, hrev, stripL_append_single_of_ne c hz]
    simp [stripR]

theorem length_stripL_le (y : List Char) : (stripL y).length ≤ y.length := by
  rcases stripL_decomp y with ⟨t, ht⟩
  have := congrArg List.length ht
  simp only [List.length_append] at this
  omega

theorem strip_append_ws {c : Char} (x : List Char) (h : isSpacePy c = true) :
    strip (x ++ [c]) = strip x := by
  have : stripR (x ++ [c]) = stripR x := by
    have hrev : (x ++ [c]).reverse = c :: x.reverse := by simp
    rw [stripR, hrev, stripL_cons_ws _ h]
    rfl
  rw [strip, this]
  rfl

theorem strip_cons_ws {c : Char} (z : List Char) (h : isSpacePy c = true) :
    strip (c :: z) = strip z := by
  rw [strip, stripR_cons]
  by_cases hz : stripR z = []
  · rw [if_pos hz, stripR_singleton, if_pos h, strip, hz]
  · rw [if_neg hz, stripL_cons_ws _ h]
    rfl

theorem stripR_stripL_fixed {w : List Char} (hw : stripR w = w) :
    stripR (stripL w) = stripL w := by
  cases hz : (stripL w).reverse with
  | nil =>
      have : stripL w = [] := by
        have := congrArg List.reverse hz
        simpa using this
      rw [this]; rfl
  | cons h rest =>
      by_cases hh : isSpacePy h = true
      · exfalso
        rcases stripL_decomp w with ⟨t, ht⟩
        have hwrev : w.reverse = (stripL w).reverse ++ t.reverse := by
          conv_lhs => rw [ht]
          rw [List.reverse_append]
        have hfix : stripL w.reverse = w.reverse := by
          have := congrArg List.reverse hw
          simpa [stripR] using this
        rw [hwrev, hz, List.cons_append, stripL_cons_ws _ hh] at hfix
        have hlen := congrArg List.length hfix
        have hle := length_stripL_le (rest ++ t.reverse)
        simp only [List.length_cons, List.length_append] at hlen hle
        omega
      · rw [Bool.not_eq_true] at hh
        rw [stripR, hz, stripL_cons_not _ hh, ← hz]
        simp

theorem strip_idem (x : List Char) : strip (strip x) = strip x := by
  have h1 : stripL (strip x) = strip x := stripL_idem (stripR x)
  have h2 : stripR (strip x) = strip x :=
    stripR_stripL_fixed (stripR_idem x)
  rw [strip, h2, h1]

theorem strip_decomp (x : List Char) : ∃ a b, x = a ++ strip x ++ b := by
  rcases stripR_decomp x with ⟨t, ht⟩
  rcases stripL_decomp (stripR x) with ⟨s, hs⟩
  refine ⟨s, t, ?_⟩
  conv_lhs => rw [ht, hs]
  rw [strip]

theorem containsSub_strip {pat x : List Char}
    (h : containsSub pat (strip x) = true) : containsSub pat x = true := by
  rcases strip_decomp x with ⟨a, b, hx⟩
  exact containsSub_of_between a b hx h

theorem not_containsSub_strip {pat x : List Char}
    (h : containsSub pat x = false) : containsSub pat (strip x) = false := by
  cases hs : containsSub pat (strip x) with
  | false => rfl
  | true => rw [containsSub_strip hs] at h; exact absurd h (by simp)

/-! ## Toolkit: characters -/

theorem char_toNat_ofNat (n : Nat) (h : n.isValidChar) :
    (Char.ofNat n).toNat = n := by
  simp only [Char.ofNat, h, dite_true, Char.ofNatAux, Char.toNat]
  rfl

theorem toLower_backtick {c : Char} (h : c.toLower = '`') : c = '`' := by
  unfold Char.toLower at h
  dsimp only at h
  by_cases hc : c.toNat ≥ 65 ∧ c.toNat ≤ 90
  · exfalso
    rw [if_pos hc] at h
    have hv := congrArg Char.toNat h
    have hvalid : (c.toNat + 32).isValidChar := by left; omega
    rw [char_toNat_ofNat _ hvalid] at hv
    have h96 : ('`').toNat = 96 := by decide
    omega
  · rwa [if_neg hc] at h

/-! ## Toolkit: breakOn, splitAtTicks and the fence extractors -/

theorem isPrefixOf_append_ext {p x y : List Char}
    (h : p.isPrefixOf x = true) : p.isPrefixOf (x ++ y) = true := by
  rcases isPrefixOf_iff.mp h with ⟨t, rfl⟩
  exact isPrefixOf_iff.mpr ⟨t ++ y, by simp⟩

theorem breakOn_some {pat cs a b : List Char} (hpat : pat ≠ [])
    (h : breakOn pat cs = some (a, b)) :
    cs = a ++ pat ++ b ∧ containsSub pat a = false := by
  induction cs generalizing a b with
  | nil => exact absurd h (by simp [breakOn])
  | cons c rest ih =>
      rw [breakOn] at h
      by_cases hp : pat.isPrefixOf (c :: rest) = true
      · rw [if_pos hp] at h
        rcases isPrefixOf_iff.mp hp with ⟨t, hct⟩
        have hdrop : (c :: rest).drop pat.length = t := by
          rw [hct, List.drop_left]
        rw [hdrop] at h
        injection h with h'
        injection h' with ha hb
        subst ha; subst hb
        refine ⟨by simpa using hct, ?_⟩
        cases pat with
        | nil => exact absurd rfl hpat
        | cons p ps => rfl
      · rw [if_neg hp] at h
        cases hrec : breakOn pat rest with
        | none => rw [hrec] at h; exact absurd h (by simp)
        | some ab =>
            rcases ab with ⟨a', b'⟩
            rw [hrec] at h
            injection h with h'
            injection h' with ha hb
            subst hb
            rcases ih hrec with ⟨hres, hnc⟩
            subst ha
            refine ⟨by rw [hres]; simp, ?_⟩
            rw [containsSub]
            simp only [Bool.or_eq_false_iff]
            refine ⟨?_, hnc⟩
            cases hpc : pat.isPrefixOf (c :: a') with
            | false => rfl
            | true =>
                exfalso
                have : pat.isPrefixOf (c :: rest) = true := by
                  have := isPrefixOf_append_ext (y := pat ++ b') hpc
                  rw [hres]
                  simpa using this
                exact hp this

theorem breakOn_none {pat cs : List Char} (hpat : pat ≠ [])
    (h : breakOn pat cs = none) : containsSub pat cs = false := by
  induction cs with
  | nil =>
      rw [containsSub]
      simpa [List.isEmpty_iff] using hpat
  | cons c rest ih =>
      rw [breakOn] at h
      by_cases hp : pat.isPrefixOf (c :: rest) = true
      · rw [if_pos hp] at h; exact absurd h (by simp)
      · rw [if_neg hp] at h
        cases hrec : breakOn pat rest with
        | some ab => rw [hrec] at h; exact absurd h (by simp)
        | none =>
            rw [containsSub]
            simp only [Bool.or_eq_false_iff]
            exact ⟨by rwa [Bool.not_eq_true] at hp, ih hrec⟩

theorem splitPart1_no_sep {pat cs : List Char} (hpat : pat ≠ [])
    (hc : containsSub pat cs = true) :
    containsSub pat (splitPart1 pat cs) = false := by
  rw [splitPart1]
  cases h1 : breakOn pat cs with
  | none => rw [breakOn_none hpat h1] at hc; exact absurd hc (by simp)
  | some pr =>
      rcases pr with ⟨x, r⟩
      dsimp only
      cases h2 : breakOn pat r with
      | none => dsimp only; exact breakOn_none hpat h2
      | some pr2 =>
          rcases pr2 with ⟨a, y⟩
          dsimp only
          exact (breakOn_some hpat h2).2

theorem toL_ticks : toL "```" = ['`', '`', '`'] := rfl

theorem splitAtTicks_some {cs inner : List Char}
    (h : splitAtTicks cs = some inner) :
    (∃ b, cs = inner ++ toL "```" ++ b) ∧
      containsSub (toL "```") inner = false := by
  induction cs generalizing inner with
  | nil => exact absurd h (by simp [splitAtTicks])
  | cons c rest ih =>
      rw [splitAtTicks] at h
      by_cases hp : (toL "```").isPrefixOf (c :: rest) = true
      · rw [if_pos hp] at h
        injection h with h'
        subst h'
        rcases isPrefixOf_iff.mp hp with ⟨t, hct⟩
        exact ⟨⟨t, by simpa using hct⟩, rfl⟩
      · rw [if_neg hp] at h
        cases hrec : splitAtTicks rest with
        | none => rw [hrec] at h; exact absurd h (by simp)
        | some i' =>
            rw [hrec] at h
            injection h with h'
            rcases ih hrec with ⟨⟨b, hres⟩, hnc⟩
            subst h'
            refine ⟨⟨b, by rw [hres]; simp⟩, ?_⟩
            rw [containsSub]
            simp only [Bool.or_eq_false_iff]
            refine ⟨?_, hnc⟩
            cases hpc : (toL "```").isPrefixOf (c :: i') with
            | false => rfl
            | true =>
                exfalso
                have : (toL "```").isPrefixOf (c :: rest) = true := by
                  have := isPrefixOf_append_ext (y := toL "```" ++ b) hpc
                  rw [hres]
                  simpa using this
                exact hp this

theorem splitAtTicks_shape {a : List Char} (b : List Char)
    (ha : containsSub (toL "```") a = false) :
    splitAtTicks (a ++ '\n' :: '`' :: '`' :: '`' :: b) = some (a ++ ['\n']) := by
  induction a with
  | nil =>
      have hno : (toL "```").isPrefixOf ('\n' :: '`' :: '`' :: '`' :: b) = false := by
        rw [toL_ticks]
        simp [List.isPrefixOf]
      rw [List.nil_append, splitAtTicks, if_neg (by rw [hno]; simp)]
      rw [splitAtTicks,
        if_pos (by rw [toL_ticks]; exact isPrefixOf_iff.mpr ⟨b, rfl⟩)]
      rfl
  | cons c a' ih =>
      have hnp : (toL "```").isPrefixOf
          (c :: (a' ++ '\n' :: '`' :: '`' :: '`' :: b)) = false := by
        cases hpc : (toL "```").isPrefixOf
            (c :: (a' ++ '\n' :: '`' :: '`' :: '`' :: b)) with
        | false => rfl
        | true =>
            exfalso
            rcases isPrefixOf_iff.mp hpc with ⟨t, ht⟩
            rw [toL_ticks] at ht
            cases a' with
            | nil => simp at ht
            | cons x xs =>
                cases xs with
                | nil => simp at ht
                | cons y ys =>
                    simp only [List.cons_append, List.cons.injEq,
                      List.append_assoc] at ht
                    rcases ht with ⟨rfl, rfl, rfl, _⟩
                    have : containsSub (toL "```")
                        ('`' :: '`' :: '`' :: ys) = true := by
                      rw [containsSub]
                      simp only [Bool.or_eq_true]
                      exact Or.inl (by
                        rw [toL_ticks]
                        exact isPrefixOf_iff.mpr ⟨ys, rfl⟩)
                    rw [this] at ha
                    exact absurd ha (by decide)
      rw [List.cons_append, splitAtTicks, if_neg (by rw [hnp]; simp),
        ih (containsSub_tail ha)]
      rfl

theorem ciPrefix_head {c : Char} {xs : List Char}
    (h : ciPrefix (toL "```sql") (c :: xs) = true) : c = '`' := by
  rw [ciPrefix] at h
  rcases isPrefixOf_iff.mp h with ⟨t, ht⟩
  simp only [List.take_cons, lowerStr, List.map_cons] at ht
  have : Char.toLower c = '`' := by
    have h6 : toL "```sql" = '`' :: '`' :: '`' :: 's' :: 'q' :: 'l' :: [] := rfl
    rw [h6] at ht
    simp only [List.cons_append, List.cons.injEq] at ht
    exact ht.1
  exact toLower_backtick this

theorem extractFence_head {c : Char} {xs : List Char}
    (h : (toL "```").isPrefixOf (c :: xs) = true) : c = '`' := by
  rcases isPrefixOf_iff.mp h with ⟨t, ht⟩
  rw [toL_ticks] at ht
  simp only [List.cons_append, List.cons.injEq] at ht
  exact ht.1

theorem extractSqlFence_none {cs : List Char}
    (h : containsSub (toL "```") cs = false) : extractSqlFence cs = none := by
  induction cs with
  | nil => rfl
  | cons c rest ih =>
      rw [extractSqlFence]
      have hci : ciPrefix (toL "```sql") (c :: rest) = false := by
        cases hc : ciPrefix (toL "```sql") (c :: rest) with
        | false => rfl
        | true =>
            exfalso
            have hc1 : c = '`' := ciPrefix_head hc
            subst hc1
            rw [ciPrefix] at hc
            rcases isPrefixOf_iff.mp hc with ⟨t, ht⟩
            cases rest with
            | nil => simp [lowerStr, toL] at ht
            | cons c2 rest2 =>
                have hc2 : c2 = '`' := by
                  have h6 : toL "```sql" =
                      '`' :: '`' :: '`' :: 's' :: 'q' :: 'l' :: [] := rfl
                  rw [h6] at ht
                  simp only [List.take_cons, lowerStr, List.map_cons,
                    List.cons_append, List.cons.injEq] at ht
                  exact toLower_backtick ht.2.1
                subst hc2
                cases rest2 with
                | nil => simp [lowerStr, toL] at ht
                | cons c3 rest3 =>
                    have hc3 : c3 = '`' := by
                      have h6 : toL "```sql" =
                          '`' :: '`' :: '`' :: 's' :: 'q' :: 'l' :: [] := rfl
                      rw [h6] at ht
                      simp only [List.take_cons, lowerStr, List.map_cons,
                        List.cons_append, List.cons.injEq] at ht
                      exact toLower_backtick ht.2.2.1
                    subst hc3
                    have : containsSub (toL "```")
                        ('`' :: '`' :: '`' :: rest3) = true := by
                      rw [containsSub]
                      simp only [Bool.or_eq_true]
                      exact Or.inl (by
                        rw [toL_ticks]
                        exact isPrefixOf_iff.mpr ⟨rest3, rfl⟩)
                    rw [this] at h
                    exact absurd h (by decide)
      rw [if_neg (by rw [hci]; simp)]
      exact ih (containsSub_tail h)

theorem extractFence_none {cs : List Char}
    (h : containsSub (toL "```") cs = false) : extractFence cs = none := by
  induction cs with
  | nil => rfl
  | cons c rest ih =>
      rw [extractFence]
      have hci : (toL "```").isPrefixOf (c :: rest) = false := by
        cases hc : (toL "```").isPrefixOf (c :: rest) with
        | false => rfl
        | true =>
            exfalso
            rw [containsSub] at h
            simp only [Bool.or_eq_false_iff] at h
            rw [hc] at h
            exact absurd h.1 (by decide)
      rw [if_neg (by rw [hci]; simp)]
      exact ih (containsSub_tail h)

theorem extractSqlFence_some {cs inner : List Char}
    (h : extractSqlFence cs = some inner) :
    (∃ a b, cs = a ++ inner ++ b) ∧ containsSub (toL "```") inner = false := by
  induction cs generalizing inner with
  | nil => exact absurd h (by simp [extractSqlFence])
  | cons c rest ih =>
      rw [extractSqlFence] at h
      by_cases hp : ciPrefix (toL "```sql") (c :: rest) = true
      · rw [if_pos hp] at h
        rcases splitAtTicks_some h with ⟨⟨b, hres⟩, hnc⟩
        refine ⟨⟨(c :: rest).take 6, toL "```" ++ b, ?_⟩, hnc⟩
        conv_lhs => rw [← List.take_append_drop 6 (c :: rest)]
        rw [hres]
        simp
      · rw [if_neg hp] at h
        rcases ih h with ⟨⟨a, b, hres⟩, hnc⟩
        exact ⟨⟨c :: a, b, by rw [hres]; rfl⟩, hnc⟩

theorem extractFence_some {cs inner : List Char}
    (h : extractFence cs = some inner) :
    (∃ a b, cs = a ++ inner ++ b) ∧ containsSub (toL "```") inner = false := by
  induction cs generalizing inner with
  | nil => exact absurd h (by simp [extractFence])
  | cons c rest ih =>
      rw [extractFence] at h
      by_cases hp : (toL "```").isPrefixOf (c :: rest) = true
      · rw [if_pos hp] at h
        rcases splitAtTicks_some h with ⟨⟨b, hres⟩, hnc⟩
        refine ⟨⟨(c :: rest).take 3, toL "```" ++ b, ?_⟩, hnc⟩
        conv_lhs => rw [← List.take_append_drop 3 (c :: rest)]
        rw [hres]
        simp
      · rw [if_neg hp] at h
        rcases ih h with ⟨⟨a, b, hres⟩, hnc⟩
        exact ⟨⟨c :: a, b, by rw [hres]; rfl⟩, hnc⟩


/-! ## The cleaner is idempotent -/

theorem fenceExtract_stripped {r1 : List Char} (h : strip r1 = r1) :
    strip (fenceExtract r1) = fenceExtract r1 := by
  rw [fenceExtract]
  cases h1 : extractSqlFence r1 with
  | some inner => exact strip_idem inner
  | none =>
      dsimp only
      cases h2 : extractFence r1 with
      | some inner => exact strip_idem inner
      | none => exact h

theorem thinkStrip_stripped {r0 : List Char} (h : strip r0 = r0) :
    strip (thinkStrip r0) = thinkStrip r0 := by
  rw [thinkStrip]
  by_cases hc : (containsSub (toL "<think>") r0
      && containsSub (toL "</think>") r0) = true
  · rw [if_pos hc]; exact strip_idem _
  · rw [if_neg hc]; exact h

theorem fenceExtract_between (r1 : List Char) :
    ∃ a b, r1 = a ++ fenceExtract r1 ++ b := by
  cases h1 : extractSqlFence r1 with
  | some inner =>
      have hfe : fenceExtract r1 = strip inner := by rw [fenceExtract, h1]
      rcases extractSqlFence_some h1 with ⟨⟨a, b, hr⟩, _⟩
      rcases strip_decomp inner with ⟨x, y, hi⟩
      refine ⟨a ++ x, y ++ b, ?_⟩
      rw [hfe]
      conv_lhs => rw [hr, hi]
      simp [List.append_assoc]
  | none =>
      cases h2 : extractFence r1 with
      | some inner =>
          have hfe : fenceExtract r1 = strip inner := by
            rw [fenceExtract, h1]; dsimp only; rw [h2]
          rcases extractFence_some h2 with ⟨⟨a, b, hr⟩, _⟩
          rcases strip_decomp inner with ⟨x, y, hi⟩
          refine ⟨a ++ x, y ++ b, ?_⟩
          rw [hfe]
          conv_lhs => rw [hr, hi]
          simp [List.append_assoc]
      | none =>
          have hfe : fenceExtract r1 = r1 := by
            rw [fenceExtract, h1]; dsimp only; rw [h2]
          exact ⟨[], [], by rw [hfe]; simp⟩

theorem thinkStrip_pair_false (r0 : List Char) :
    (containsSub (toL "<think>") (thinkStrip r0)
      && containsSub (toL "</think>") (thinkStrip r0)) = false := by
  rw [thinkStrip]
  by_cases hc : (containsSub (toL "<think>") r0
      && containsSub (toL "</think>") r0) = true
  · rw [if_pos hc]
    have hsep : containsSub (toL "</think>") r0 = true := by
      rcases Bool.and_eq_true_iff.mp hc with ⟨_, h2⟩
      exact h2
    have hno : containsSub (toL "</think>") (splitPart1 (toL "</think>") r0)
        = false := splitPart1_no_sep (by decide) hsep
    rw [not_containsSub_strip hno]
    simp
  · rw [if_neg hc]
    exact Bool.eq_false_iff.mpr hc

theorem pair_false_of_between {r m : List Char} (a b : List Char)
    (hinf : m = a ++ r ++ b)
    (h : (containsSub (toL "<think>") m
      && containsSub (toL "</think>") m) = false) :
    (containsSub (toL "<think>") r
      && containsSub (toL "</think>") r) = false := by
  simp only [Bool.and_eq_false_iff] at h ⊢
  rcases h with h | h
  · left
    cases hr : containsSub (toL "<think>") r with
    | false => rfl
    | true => rw [containsSub_of_between a b hinf hr] at h; exact h
  · right
    cases hr : containsSub (toL "</think>") r with
    | false => rfl
    | true => rw [containsSub_of_between a b hinf hr] at h; exact h

theorem fenceExtract_of_fenceExtract (r1 : List Char) :
    fenceExtract (fenceExtract r1) = fenceExtract r1 := by
  cases h1 : extractSqlFence r1 with
  | some inner =>
      have hfe : fenceExtract r1 = strip inner := by rw [fenceExtract, h1]
      have hnt : containsSub (toL "```") (strip inner) = false :=
        not_containsSub_strip (extractSqlFence_some h1).2
      rw [hfe, fenceExtract, extractSqlFence_none hnt]
      dsimp only
      rw [extractFence_none hnt]
  | none =>
      cases h2 : extractFence r1 with
      | some inner =>
          have hfe : fenceExtract r1 = strip inner := by
            rw [fenceExtract, h1]; dsimp only; rw [h2]
          have hnt : containsSub (toL "```") (strip inner) = false :=
            not_containsSub_strip (extractFence_some h2).2
          rw [hfe, fenceExtract, extractSqlFence_none hnt]
          dsimp only
          rw [extractFence_none hnt]
      | none =>
          have hfe : fenceExtract r1 = r1 := by
            rw [fenceExtract, h1]; dsimp only; rw [h2]
          rw [hfe, fenceExtract, h1]
          dsimp only
          rw [h2]


/-- C8: the cleaning function `_clean_sql_output` is idempotent — for
every string `s`, cleaning the result of cleaning `s` returns the same
string as cleaning `s` once. -/
theorem clean_sql_output_idem (raw : List Char) :
    clean_sql_output (clean_sql_output raw) = clean_sql_output raw := by
  rw [clean_sql_output, clean_sql_output]
  have h0 : strip (strip raw) = strip raw := strip_idem raw
  have h1 : strip (thinkStrip (strip raw)) = thinkStrip (strip raw) :=
    thinkStrip_stripped h0
  have hr : strip (fenceExtract (thinkStrip (strip raw)))
      = fenceExtract (thinkStrip (strip raw)) := fenceExtract_stripped h1
  rw [hr]
  have hpair1 := thinkStrip_pair_false (strip raw)
  rcases fenceExtract_between (thinkStrip (strip raw)) with ⟨a, b, hinf⟩
  have hpair := pair_false_of_between a b hinf hpair1
  have hth : thinkStrip (fenceExtract (thinkStrip (strip raw)))
      = fenceExtract (thinkStrip (strip raw)) := by
    rw [thinkStrip, if_neg (by rw [hpair]; simp)]
  rw [hth, fenceExtract_of_fenceExtract]


/-! ## Fence extraction on a well-formed fenced input -/

theorem extractSqlFence_skip {p : List Char} (rest : List Char)
    (hp : ∀ c ∈ p, ¬(c = '`')) :
    extractSqlFence (p ++ rest) = extractSqlFence rest := by
  induction p with
  | nil => rfl
  | cons c p' ih =>
      rw [List.cons_append, extractSqlFence]
      have hci : ciPrefix (toL "```sql") (c :: (p' ++ rest)) = false := by
        cases hc : ciPrefix (toL "```sql") (c :: (p' ++ rest)) with
        | false => rfl
        | true => exact absurd (ciPrefix_head hc) (hp c (List.mem_cons_self c p'))
      rw [if_neg (by rw [hci]; simp)]
      exact ih fun c hc => hp c (List.mem_cons_of_mem _ hc)

theorem ciPrefix_sql_fence (rest : List Char) :
    ciPrefix (toL "```sql") (toL "```sql" ++ rest) = true := by
  rw [ciPrefix, lowerStr, List.map_append]
  have hself : List.map Char.toLower (toL "```sql") = toL "```sql" := by decide
  rw [hself]
  exact isPrefixOf_iff.mpr ⟨List.map Char.toLower rest, rfl⟩

theorem extractSqlFence_fence (rest : List Char) :
    extractSqlFence (toL "```sql" ++ rest) = splitAtTicks rest := by
  have hshape : toL "```sql" ++ rest
      = '`' :: ('`' :: '`' :: 's' :: 'q' :: 'l' :: rest) := rfl
  have hci := ciPrefix_sql_fence rest
  rw [hshape] at hci ⊢
  rw [extractSqlFence, if_pos hci]
  rfl


/-- C9 (amended): cleaning the input `prefix ++ "```sql\n" ++ SQL ++
"\n```" ++ suffix` returns exactly the trimmed SQL, provided the assembled
input contains no `<think>` marker, the prefix contains no backtick, and
the SQL contains no triple-backtick fence. -/
theorem clean_extracts_sql_fence (p sql q : List Char)
    (hth : containsSub (toL "<think>")
      (p ++ toL "```sql\n" ++ sql ++ toL "\n```" ++ q) = false)
    (hp : ∀ c ∈ p, ¬(c = '`'))
    (hsql : containsSub (toL "```") sql = false) :
    clean_sql_output (p ++ toL "```sql\n" ++ sql ++ toL "\n```" ++ q)
      = strip sql := by
  have hraw : p ++ toL "```sql\n" ++ sql ++ toL "\n```" ++ q
      = p ++ ((toL "```sql" ++ '\n' :: (sql ++ '\n' :: '`' :: '`' :: '`' :: []))
          ++ q) := by
    simp [toL]
  rw [hraw] at hth ⊢
  have hmid : toL "```sql" ++ '\n' :: (sql ++ '\n' :: '`' :: '`' :: '`' :: [])
      = (toL "```sql" ++ '\n' :: (sql ++ '\n' :: '`' :: '`' :: [])) ++ ['`'] := by
    simp
  -- the strip of the whole input keeps the fenced block intact
  have hstripR : stripR (p ++ ((toL "```sql"
        ++ '\n' :: (sql ++ '\n' :: '`' :: '`' :: '`' :: [])) ++ q))
      = (p ++ (toL "```sql" ++ '\n' :: (sql ++ '\n' :: '`' :: '`' :: '`' :: [])))
          ++ stripR q := by
    rw [← List.append_assoc]
    exact stripR_append
      (p ++ (toL "```sql" ++ '\n' :: (sql ++ '\n' :: '`' :: '`' :: [])))
      '`' (by rw [hmid]; simp) (by decide)
  have hstrip : strip (p ++ ((toL "```sql"
        ++ '\n' :: (sql ++ '\n' :: '`' :: '`' :: '`' :: [])) ++ q))
      = stripL p ++ (toL "```sql"
          ++ '\n' :: (sql ++ ('\n' :: '`' :: '`' :: '`' :: stripR q))) := by
    rw [strip, hstripR, List.append_assoc]
    rw [stripL_append '`'
      (toL "``sql" ++ '\n' :: (sql ++ '\n' :: '`' :: '`' :: '`' :: [])
        ++ stripR q) (by simp [toL]) (by decide)]
    simp [toL]
  rw [clean_sql_output, hstrip]
  -- the reasoning-tag stage does nothing
  have hpair : (containsSub (toL "<think>")
        (stripL p ++ (toL "```sql"
          ++ '\n' :: (sql ++ ('\n' :: '`' :: '`' :: '`' :: stripR q))))
      && containsSub (toL "</think>")
        (stripL p ++ (toL "```sql"
          ++ '\n' :: (sql ++ ('\n' :: '`' :: '`' :: '`' :: stripR q)))))
      = false := by
    have := not_containsSub_strip hth
    rw [hstrip] at this
    rw [this]
    simp
  rw [thinkStrip, if_neg (by rw [hpair]; simp)]
  -- the sql fence is found and its interior extracted
  have hfence : extractSqlFence (stripL p ++ (toL "```sql"
        ++ '\n' :: (sql ++ ('\n' :: '`' :: '`' :: '`' :: stripR q))))
      = some (('\n' :: sql) ++ ['\n']) := by
    rw [extractSqlFence_skip _ fun c hc => hp c (mem_of_mem_stripL hc),
      extractSqlFence_fence]
    have hT : '\n' :: (sql ++ ('\n' :: '`' :: '`' :: '`' :: stripR q))
        = ('\n' :: sql) ++ '\n' :: '`' :: '`' :: '`' :: stripR q := by simp
    rw [hT]
    refine splitAtTicks_shape (stripR q) ?_
    rw [containsSub]
    simp only [Bool.or_eq_false_iff]
    refine ⟨?_, hsql⟩
    rw [toL_ticks]
    simp [List.isPrefixOf]
  rw [fenceExtract, hfence]
  have h1 : ('\n' :: sql) ++ ['\n'] = '\n' :: (sql ++ ['\n']) := by simp
  rw [h1]
  dsimp only
  rw [strip_cons_ws _ (by decide), strip_append_ws _ (by decide)]


/-- Witness for C9 (amended): a concrete prefixed and suffixed fenced
block is cleaned to exactly the trimmed SQL. -/
theorem clean_extracts_sql_fence_witness :
    clean_sql_output (toL "Sure: " ++ toL "```sql\n" ++ toL " SELECT 1; "
      ++ toL "\n```" ++ toL " done") = strip (toL " SELECT 1; ") :=
  clean_extracts_sql_fence (toL "Sure: ") (toL " SELECT 1; ") (toL " done")
    (by decide) (by decide) (by decide)

/-- Counterexample to C9 as stated: with empty prefix and suffix and the
SQL string `a```b` (which itself contains a fence marker), cleaning
returns `a`, not the trimmed SQL. -/
theorem clean_fence_counterexample :
    clean_sql_output (toL "" ++ toL "```sql\n" ++ toL "a```b"
      ++ toL "\n```" ++ toL "") ≠ strip (toL "a```b") := by decide


/-! ## Whole-word occurrences survive stripping -/

theorem isSpacePy_not_word {c : Char} (h : isSpacePy c = true) :
    isWordChar c = false := by
  simp only [isSpacePy, Bool.or_eq_true, beq_iff_eq] at h
  rcases h with ((((rfl | rfl) | rfl) | rfl) | rfl) | rfl <;> decide

theorem word_ne_of_space {k c : Char} (hk : isWordChar k = true)
    (hc : isSpacePy c = true) : (k == c) = false := by
  cases he : k == c with
  | false => rfl
  | true =>
      rw [beq_iff_eq] at he
      subst he
      rw [isSpacePy_not_word hc] at hk
      exact absurd hk (by decide)

theorem wordAt_append_nonword {kw z : List Char} {c : Char}
    (hkw : ∀ x ∈ kw, isWordChar x = true) (hc : isWordChar c = false) :
    wordAt kw (z ++ [c]) = wordAt kw z := by
  induction kw generalizing z with
  | nil =>
      cases z with
      | nil => simp [wordAt, hc]
      | cons y ys => simp [wordAt]
  | cons k ks ih =>
      cases z with
      | nil =>
          simp only [List.nil_append, wordAt]
          have hne : (k == c) = false := by
            cases he : k == c with
            | false => rfl
            | true =>
                rw [beq_iff_eq] at he
                subst he
                rw [hkw k (List.mem_cons_self k ks)] at hc
                exact absurd hc (by decide)
          rw [hne]
          rfl
      | cons y ys =>
          simp only [List.cons_append, wordAt, List.append_eq]
          rw [ih fun x hx => hkw x (List.mem_cons_of_mem _ hx)]

theorem containsWordAux_append_ws {kw : List Char} {c : Char}
    (hkw : ∀ x ∈ kw, isWordChar x = true) (hne : kw ≠ [])
    (hc : isSpacePy c = true) :
    ∀ (x : List Char) (prev : Bool),
      containsWordAux kw (x ++ [c]) prev = containsWordAux kw x prev := by
  intro x
  induction x with
  | nil =>
      intro prev
      cases kw with
      | nil => exact absurd rfl hne
      | cons k ks =>
          show ((!prev && wordAt (k :: ks) [c])
              || containsWordAux (k :: ks) [] (isWordChar c))
            = containsWordAux (k :: ks) [] prev
          rw [wordAt, word_ne_of_space (hkw k (List.mem_cons_self k ks)) hc]
          simp [containsWordAux]
  | cons y ys ih =>
      intro prev
      show ((!prev && wordAt kw (y :: (ys ++ [c])))
          || containsWordAux kw (ys ++ [c]) (isWordChar y))
        = ((!prev && wordAt kw (y :: ys)) || containsWordAux kw ys (isWordChar y))
      rw [ih]
      have : wordAt kw (y :: (ys ++ [c])) = wordAt kw (y :: ys) := by
        have h1 : y :: (ys ++ [c]) = (y :: ys) ++ [c] := by simp
        rw [h1, wordAt_append_nonword hkw (isSpacePy_not_word hc)]
      rw [this]

theorem containsWord_stripL {kw : List Char}
    (hkw : ∀ x ∈ kw, isWordChar x = true) (hne : kw ≠ []) (x : List Char) :
    containsWord kw (stripL x) = containsWord kw x := by
  induction x with
  | nil => rfl
  | cons c rest ih =>
      by_cases hc : isSpacePy c = true
      · rw [stripL_cons_ws _ hc, ih]
        have hw : wordAt kw (c :: rest) = false := by
          cases kw with
          | nil => exact absurd rfl hne
          | cons k ks =>
              rw [wordAt, word_ne_of_space (hkw k (List.mem_cons_self k ks)) hc]
              rfl
        show containsWordAux kw rest false
          = ((!false && wordAt kw (c :: rest))
              || containsWordAux kw rest (isWordChar c))
        rw [hw, isSpacePy_not_word hc]
        simp
      · rw [Bool.not_eq_true] at hc
        rw [stripL_cons_not _ hc]

theorem stripR_append_ws {c : Char} (x : List Char) (h : isSpacePy c = true) :
    stripR (x ++ [c]) = stripR x := by
  have hrev : (x ++ [c]).reverse = c :: x.reverse := by simp
  rw [stripR, hrev, stripL_cons_ws _ h]
  rfl

theorem stripR_append_not {c : Char} (x : List Char) (h : isSpacePy c = false) :
    stripR (x ++ [c]) = x ++ [c] := by
  have hrev : (x ++ [c]).reverse = c :: x.reverse := by simp
  rw [stripR, hrev, stripL_cons_not _ h]
  simp

theorem containsWord_stripR {kw : List Char}
    (hkw : ∀ x ∈ kw, isWordChar x = true) (hne : kw ≠ []) (x : List Char) :
    containsWord kw (stripR x) = containsWord kw x := by
  induction x using List.reverseRecOn with
  | nil => rfl
  | append_singleton ys c ih =>
      by_cases hc : isSpacePy c = true
      · rw [stripR_append_ws _ hc, ih]
        show containsWordAux kw ys false = containsWordAux kw (ys ++ [c]) false
        rw [containsWordAux_append_ws hkw hne hc]
      · rw [Bool.not_eq_true] at hc
        rw [stripR_append_not _ hc]

theorem containsWord_strip {kw : List Char}
    (hkw : ∀ x ∈ kw, isWordChar x = true) (hne : kw ≠ []) (x : List Char) :
    containsWord kw (strip x) = containsWord kw x := by
  rw [strip, containsWord_stripL hkw hne, containsWord_stripR hkw hne]


/-! ## C1: mutating keywords are rejected -/

theorem mem_dangerous9_of_mem7 {kw : List Char}
    (h : kw ∈ dangerousWords7) : kw ∈ dangerousWords9 := by
  simp only [dangerousWords7, List.mem_cons, List.not_mem_nil, or_false] at h
  rcases h with rfl | rfl | rfl | rfl | rfl | rfl | rfl <;> decide

theorem dangerous7_word_chars {kw : List Char} (h : kw ∈ dangerousWords7) :
    kw ≠ [] ∧ ∀ c ∈ kw, isWordChar c = true := by
  simp only [dangerousWords7, List.mem_cons, List.not_mem_nil, or_false] at h
  rcases h with rfl | rfl | rfl | rfl | rfl | rfl | rfl <;>
    exact ⟨by decide, by decide⟩

/-- C1 (amended): for every SQL text containing, case-insensitively, one
of the seven mutating keywords `drop, delete, update, insert, alter,
create, truncate` as a whole word, both `_validate_sql_query` and
`_validate_generated_sql` return false.  (`exec`/`execute` are rejected
only by the direct-SQL policy: the generated-SQL policy's list stops at
`truncate`.) -/
theorem mutating_keyword_rejected (kw s : List Char)
    (hkw : kw ∈ dangerousWords7)
    (hocc : containsWord kw (lowerStr s) = true) :
    validate_sql_query s = false ∧ validate_generated_sql s = false := by
  rcases dangerous7_word_chars hkw with ⟨hne, hword⟩
  have hstrip : containsWord kw (strip (lowerStr s)) = true := by
    rw [containsWord_strip hword hne]
    exact hocc
  have hany7 : dangerousWords7.any
      (fun w => containsWord w (strip (lowerStr s))) = true :=
    List.any_eq_true.mpr ⟨kw, hkw, hstrip⟩
  have hany9 : dangerousWords9.any
      (fun w => containsWord w (strip (lowerStr s))) = true :=
    List.any_eq_true.mpr ⟨kw, mem_dangerous9_of_mem7 hkw, hstrip⟩
  constructor
  · rw [validate_sql_query]
    simp only [hany9, if_true]
  · rw [validate_generated_sql]
    simp only [hany7, if_true]
    split
    · rfl
    · rfl

/-- Witness for C1 (amended): `DROP TABLE users;` contains `drop` as a
whole word and is rejected by both policies. -/
theorem mutating_keyword_rejected_witness :
    validate_sql_query (toL "DROP TABLE users;") = false ∧
    validate_generated_sql (toL "DROP TABLE users;") = false :=
  mutating_keyword_rejected (toL "drop") (toL "DROP TABLE users;")
    (by decide) (by decide)

/-- Counterexample to C1 as stated: `select exec` contains the mutating
keyword `exec` as a whole word, yet the generated-SQL policy accepts it —
its dangerous list has no `exec`/`execute` entries. -/
theorem generated_policy_misses_exec :
    containsWord (toL "exec") (lowerStr (toL "select exec")) = true ∧
    validate_generated_sql (toL "select exec") = true := by decide


/-! ## C7: the nested-select heuristic of the direct-SQL policy -/

theorem countSubAux_skip (pat : List Char) :
    ∀ (rest : List Char) (n : Nat),
      countSubAux pat rest n = countSub pat (rest.drop n) := by
  intro rest
  induction rest with
  | nil => intro n; simp [countSubAux, countSub]
  | cons c rest ih =>
      intro n
      cases n with
      | zero => rfl
      | succ m => rw [countSubAux, ih, List.drop_succ_cons]

theorem containsSub_of_countSub_pos {pat cs : List Char}
    (h : 0 < countSub pat cs) : containsSub pat cs = true := by
  induction cs with
  | nil => simp [countSub, countSubAux] at h
  | cons c rest ih =>
      rw [containsSub]
      simp only [Bool.or_eq_true]
      by_cases hp : pat.isPrefixOf (c :: rest) = true
      · exact Or.inl hp
      · rw [countSub, countSubAux, if_neg hp] at h
        exact Or.inr (ih h)

theorem countSub_select_head {cs : List Char}
    (h : (toL "select").isPrefixOf cs = true) :
    countSub (toL "select") cs = 1 + countSub (toL "select") (cs.drop 6) := by
  cases cs with
  | nil => simp [toL, List.isPrefixOf] at h
  | cons c rest =>
      rw [countSub, countSubAux, if_pos h, countSubAux_skip]
      rfl

/-- C7 (amended): the direct-SQL policy accepts only texts whose trimmed
form starts case-insensitively with `select`; it rejects every text in
which the SUBSTRING `select` occurs (after lowercasing and trimming) more
than twice — the code counts substring occurrences, not keyword
occurrences; and a text with exactly two such substring occurrences and no
other disqualifier is accepted. -/
theorem direct_policy_select_heuristic :
    (∀ s, validate_sql_query s = true →
        (toL "select").isPrefixOf (strip (lowerStr s)) = true) ∧
    (∀ s, 2 < countSub (toL "select") (strip (lowerStr s)) →
        validate_sql_query s = false) ∧
    (∀ s,
      dangerousWords9.any
        (fun w => containsWord w (strip (lowerStr s))) = false →
      semiThen dangerousWords9 (strip (lowerStr s)) = false →
      containsSub (toL "--") (strip (lowerStr s)) = false →
      hasBlockComment (strip (lowerStr s)) = false →
      unionSelectComment (strip (lowerStr s)) = false →
      semiThen [toL "shutdown"] (strip (lowerStr s)) = false →
      (toL "select").isPrefixOf (strip (lowerStr s)) = true →
      countSub (toL "select") (strip (lowerStr s)) = 2 →
      validate_sql_query s = true) := by
  refine ⟨?_, ?_, ?_⟩
  · intro s h
    rw [validate_sql_query] at h
    split_ifs at h with h1 h2 h3 h4 h5 h6 h7 h8
    rwa [Bool.not_eq_true', Bool.not_eq_false] at h7
  · intro s hcount
    rw [validate_sql_query]
    split_ifs with h1 h2 h3 h4 h5 h6 h7 h8
    any_goals rfl
    exfalso
    apply h8
    rw [Bool.not_eq_true', Bool.not_eq_false] at h7
    have hhead := countSub_select_head h7
    have hpos : 0 < countSub (toL "select") ((strip (lowerStr s)).drop 6) := by
      omega
    rw [containsSub_of_countSub_pos hpos]
    simpa using hcount
  · intro s h1 h2 h3 h4 h5 h6 h7 h8
    rw [validate_sql_query]
    rw [if_neg (by rw [h1]; simp), if_neg (by rw [h2]; simp),
      if_neg (by rw [h3]; simp), if_neg (by rw [h4]; simp),
      if_neg (by rw [h5]; simp), if_neg (by rw [h6]; simp),
      if_neg (by rw [h7]; simp), if_neg (by rw [h8]; simp)]

/-- Witness for C7 (amended): each of the three conjuncts at a concrete
input — an accepted query starts with `select`; three `select`s are
rejected; exactly two `select`s with no other disqualifier are accepted. -/
theorem direct_policy_select_heuristic_witness :
    (toL "select").isPrefixOf
      (strip (lowerStr (toL "SELECT * FROM users"))) = true ∧
    validate_sql_query
      (toL "select a from (select b from (select c from t))") = false ∧
    validate_sql_query (toL "select a from (select b from t)") = true :=
  ⟨direct_policy_select_heuristic.1 (toL "SELECT * FROM users") (by decide),
   direct_policy_select_heuristic.2.1
     (toL "select a from (select b from (select c from t))") (by decide),
   direct_policy_select_heuristic.2.2
     (toL "select a from (select b from t)") (by decide) (by decide)
     (by decide) (by decide) (by decide) (by decide) (by decide) (by decide)⟩

/-- Counterexample to C7 as stated: `select a from (select selector from
t)` has exactly two `select` KEYWORD occurrences and no other
disqualifier, yet the policy rejects it, because `selector` contributes a
third SUBSTRING occurrence to the count. -/
theorem nested_select_keyword_counterexample :
    countWord (toL "select")
      (strip (lowerStr (toL "select a from (select selector from t)"))) = 2 ∧
    dangerousWords9.any (fun w => containsWord w
      (strip (lowerStr (toL "select a from (select selector from t)"))))
        = false ∧
    semiThen dangerousWords9
      (strip (lowerStr (toL "select a from (select selector from t)")))
        = false ∧
    containsSub (toL "--")
      (strip (lowerStr (toL "select a from (select selector from t)")))
        = false ∧
    hasBlockComment
      (strip (lowerStr (toL "select a from (select selector from t)")))
        = false ∧
    unionSelectComment
      (strip (lowerStr (toL "select a from (select selector from t)")))
        = false ∧
    semiThen [toL "shutdown"]
      (strip (lowerStr (toL "select a from (select selector from t)")))
        = false ∧
    (toL "select").isPrefixOf
      (strip (lowerStr (toL "select a from (select selector from t)")))
        = true ∧
    validate_sql_query (toL "select a from (select selector from t)")
      = false := by decide


/-! ## C3: row-limit injection in the executor -/

theorem isSuffixOf_iff {p l : List Char} :
    p.isSuffixOf l = true ↔ ∃ t, l = t ++ p := by
  rw [List.isSuffixOf, isPrefixOf_iff]
  constructor
  · rintro ⟨t, ht⟩
    refine ⟨t.reverse, ?_⟩
    have := congrArg List.reverse ht
    simpa using this
  · rintro ⟨t, rfl⟩
    exact ⟨t.reverse, by simp⟩

/-- C3: for a positive row limit `N`, a statement whose upper-cased
trimmed form starts with `SELECT` and does not contain `LIMIT` is executed
as the original text with trailing semicolons stripped and ` LIMIT N`
appended — so against any store honouring a trailing LIMIT clause, at most
`N` rows come back; a statement already containing `LIMIT` is passed to
the store completely unmodified. -/
theorem execute_query_row_limit :
    (∀ (query : List Char) (N : Nat), 0 < N →
      (toL "SELECT").isPrefixOf (strip (upperStr query)) = true →
      containsSub (toL "LIMIT") (strip (upperStr query)) = false →
      inject_limit query N = rstripSemi query ++ limitClause N ∧
      ∀ {α : Type} (store : List Char → List α), StoreRespectsLimit store →
        (execute_query store query N).length ≤ N) ∧
    (∀ (query : List Char) (N : Nat),
      containsSub (toL "LIMIT") (strip (upperStr query)) = true →
      inject_limit query N = query) := by
  constructor
  · intro query N hN hsel hnolim
    have hinj : inject_limit query N = rstripSemi query ++ limitClause N := by
      rw [inject_limit]
      have h1 : (N != 0) = true := by
        simp only [bne_iff_ne, ne_eq]
        omega
      have h2 : (toL "LIMIT " ++ Nat.toDigits 10 N).isSuffixOf
          (strip (upperStr query)) = false := by
        cases hs : (toL "LIMIT " ++ Nat.toDigits 10 N).isSuffixOf
            (strip (upperStr query)) with
        | false => rfl
        | true =>
            exfalso
            rcases isSuffixOf_iff.mp hs with ⟨t, ht⟩
            refine not_containsSub_of_append
              (a := t) (b := ' ' :: Nat.toDigits 10 N) ?_ hnolim
            rw [ht]
            simp [toL]
      rw [h1, hsel, h2, hnolim]
      simp [limitClause]
    refine ⟨hinj, ?_⟩
    intro α store hstore
    rw [execute_query, hinj, limitClause]
    exact hstore (rstripSemi query) N
  · intro query N hlim
    rw [inject_limit, hlim]
    simp

/-- Witness for C3: a concrete LIMIT-less SELECT gets ` LIMIT 100`
appended after its semicolon is stripped and returns at most 100 rows
from a store honouring LIMIT; a SELECT already carrying LIMIT is passed
through unchanged. -/
theorem execute_query_row_limit_witness :
    inject_limit (toL "SELECT * FROM t;") 100
        = rstripSemi (toL "SELECT * FROM t;") ++ limitClause 100 ∧
    (execute_query (fun _ => ([] : List Nat)) (toL "SELECT * FROM t;")
        100).length ≤ 100 ∧
    inject_limit (toL "SELECT * FROM t LIMIT 5") 100
        = toL "SELECT * FROM t LIMIT 5" :=
  ⟨(execute_query_row_limit.1 (toL "SELECT * FROM t;") 100 (by decide)
      (by decide) (by decide)).1,
   (execute_query_row_limit.1 (toL "SELECT * FROM t;") 100 (by decide)
      (by decide) (by decide)).2 (fun _ => ([] : List Nat))
      (fun _ _ => by simp),
   execute_query_row_limit.2 (toL "SELECT * FROM t LIMIT 5") 100 (by decide)⟩


/-! ## C10, C5: schema introspection output -/

/-- C10: with a reachable store containing zero tables, `get_table_info`
succeeds and returns exactly the string `No tables found in database.` -/
theorem get_table_info_empty
    (describe : List Char → Option (List (List Char × List Char))) :
    get_table_info (Except.ok []) describe
      = toL "No tables found in database." := rfl

/-- C5: when exactly one table's describe call fails and the listing and
all other describe calls succeed, the schema string is the blank-line join
of per-table sections in which the failing table's section is exactly
`Table: <name>\nColumns: [Error retrieving schema]` and every other
section is the normal `Table: <name>\nColumns: <col> (<type>), ...` block;
the fetch as a whole succeeds. -/
theorem get_table_info_partial_failure
    (pre post : List (List Char)) (bad : List Char)
    (describe : List Char → Option (List (List Char × List Char)))
    (cols : List Char → List (List Char × List Char))
    (hbad : describe bad = none)
    (hok : ∀ t ∈ pre ++ post, describe t = some (cols t)) :
    get_table_info (Except.ok (pre ++ bad :: post)) describe
      = List.intercalate (toL "\n\n")
          (pre.map (fun t => toL "Table: " ++ t ++ toL "\nColumns: "
              ++ formatColumns (cols t))
            ++ (toL "Table: " ++ bad
                ++ toL "\nColumns: [Error retrieving schema]")
              :: post.map (fun t => toL "Table: " ++ t ++ toL "\nColumns: "
                ++ formatColumns (cols t))) := by
  rw [get_table_info]
  rw [if_neg (by simp)]
  have hmap : ∀ (l : List (List Char)),
      (∀ t ∈ l, describe t = some (cols t)) →
      l.map (tableSection describe)
        = l.map fun t => toL "Table: " ++ t ++ toL "\nColumns: "
            ++ formatColumns (cols t) := by
    intro l hl
    apply List.map_congr_left
    intro t ht
    rw [tableSection, hl t ht]
  rw [List.map_append, List.map_cons,
    hmap pre fun t ht => hok t (List.mem_append_left _ ht),
    hmap post fun t ht => hok t (List.mem_append_right _ ht)]
  rw [tableSection, hbad]

/-- Witness for C5: two healthy tables around one failing table. -/
theorem get_table_info_partial_failure_witness :
    get_table_info
      (Except.ok [toL "users", toL "ghost", toL "orders"])
      (fun t => if t = toL "ghost" then none
        else some [(toL "id", toL "INTEGER")])
      = List.intercalate (toL "\n\n")
          ([toL "users"].map (fun t => toL "Table: " ++ t ++ toL "\nColumns: "
              ++ formatColumns [(toL "id", toL "INTEGER")])
            ++ (toL "Table: " ++ toL "ghost"
                ++ toL "\nColumns: [Error retrieving schema]")
              :: [toL "orders"].map (fun t => toL "Table: " ++ t
                ++ toL "\nColumns: "
                ++ formatColumns [(toL "id", toL "INTEGER")])) :=
  get_table_info_partial_failure [toL "users"] [toL "orders"] (toL "ghost")
    (fun t => if t = toL "ghost" then none
      else some [(toL "id", toL "INTEGER")])
    (fun _ => [(toL "id", toL "INTEGER")]) (by decide) (by decide)


/-! ## C6: schema cache TTL -/

/-- C6: starting from an empty cache, the first fetch at `t0` performs the
underlying introspection call and returns its result; a second fetch at
`t1` with `t1 - t0 <= 300` performs no introspection call and returns the
same cached string (exactly one call across the pair); a fetch at `t2`
with `t2 - t0 > 300` performs a second introspection call. -/
theorem schema_cache_ttl (t0 t1 t2 : Int) (info0 info1 info2 : List Char)
    (h01 : t1 - t0 ≤ 300) (h02 : t2 - t0 > 300) :
    (get_schema_info ⟨none, none⟩ t0 (Except.ok info0)).2.2 = true ∧
    (get_schema_info ⟨none, none⟩ t0 (Except.ok info0)).1
        = Except.ok info0 ∧
    (get_schema_info (get_schema_info ⟨none, none⟩ t0
        (Except.ok info0)).2.1 t1 (Except.ok info1)).2.2 = false ∧
    (get_schema_info (get_schema_info ⟨none, none⟩ t0
        (Except.ok info0)).2.1 t1 (Except.ok info1)).1
      = (get_schema_info ⟨none, none⟩ t0 (Except.ok info0)).1 ∧
    (get_schema_info (get_schema_info ⟨none, none⟩ t0
        (Except.ok info0)).2.1 t2 (Except.ok info2)).2.2 = true := by
  have hstate : (get_schema_info ⟨none, none⟩ t0 (Except.ok info0)).2.1
      = ⟨some info0, some t0⟩ := rfl
  have hfresh : get_schema_info ⟨some info0, some t0⟩ t1 (Except.ok info1)
      = (Except.ok info0, ⟨some info0, some t0⟩, false) := by
    rw [get_schema_info]
    dsimp only
    rw [if_neg (by rw [cacheTTL]; omega)]
  have hstale : (get_schema_info ⟨some info0, some t0⟩ t2
      (Except.ok info2)).2.2 = true := by
    rw [get_schema_info]
    dsimp only
    rw [if_pos (by rw [cacheTTL]; omega)]
  exact ⟨rfl, rfl, by rw [hstate, hfresh], by rw [hstate, hfresh]; rfl,
    by rw [hstate]; exact hstale⟩

/-- Witness for C6: `t0 = 0`, a fresh fetch at `t1 = 200` (within TTL) and
a stale fetch at `t2 = 400` (past TTL). -/
theorem schema_cache_ttl_witness :
    (get_schema_info ⟨none, none⟩ 0 (Except.ok (toL "s0"))).2.2 = true ∧
    (get_schema_info ⟨none, none⟩ 0 (Except.ok (toL "s0"))).1
        = Except.ok (toL "s0") ∧
    (get_schema_info (get_schema_info ⟨none, none⟩ 0
        (Except.ok (toL "s0"))).2.1 200 (Except.ok (toL "s1"))).2.2 = false ∧
    (get_schema_info (get_schema_info ⟨none, none⟩ 0
        (Except.ok (toL "s0"))).2.1 200 (Except.ok (toL "s1"))).1
      = (get_schema_info ⟨none, none⟩ 0 (Except.ok (toL "s0"))).1 ∧
    (get_schema_info (get_schema_info ⟨none, none⟩ 0
        (Except.ok (toL "s0"))).2.1 400 (Except.ok (toL "s2"))).2.2 = true :=
  schema_cache_ttl 0 200 400 (toL "s0") (toL "s1") (toL "s2")
    (by decide) (by decide)

/-! ## C4: validation rejection of generated SQL -/

/-- C4: when the cleaned generation output fails the generated-SQL policy,
`natural_language_to_sql` fails with a message containing `Generated SQL
failed validation`, having made exactly one generation call; through the
endpoint's NLQ branch no execution call is made and the generation is
never retried. -/
theorem generation_validation_failure {α : Type}
    (schema question : List Char)
    (gen : List Char → List Char → List Char)
    (store : List Char → List α) (maxRows : Nat)
    (hrej : validate_generated_sql
      (clean_sql_output (gen schema question)) = false) :
    natural_language_to_sql (Except.ok schema) gen question
        = (Except.error
            (toL "Failed to generate SQL query: Generated SQL failed validation"),
          1) ∧
    containsSub (toL "Generated SQL failed validation")
        (toL "Failed to generate SQL query: Generated SQL failed validation")
      = true ∧
    (run_nlq_query (Except.ok schema) gen question store maxRows).2.1 = 1 ∧
    (run_nlq_query (Except.ok schema) gen question store maxRows).2.2 = 0 := by
  have hnl : natural_language_to_sql (Except.ok schema) gen question
      = (Except.error
          (toL "Failed to generate SQL query: Generated SQL failed validation"),
        1) := by
    rw [natural_language_to_sql]
    rw [if_neg (by rw [hrej]; simp)]
  refine ⟨hnl, by decide, ?_, ?_⟩
  · rw [run_nlq_query, hnl]
  · rw [run_nlq_query, hnl]

/-- Witness for C4: a generator that emits `DROP TABLE t` is rejected
without execution. -/
theorem generation_validation_failure_witness :
    natural_language_to_sql (Except.ok (toL "Table: t"))
        (fun _ _ => toL "DROP TABLE t") (toL "remove everything")
      = (Except.error
          (toL "Failed to generate SQL query: Generated SQL failed validation"),
        1) ∧
    containsSub (toL "Generated SQL failed validation")
        (toL "Failed to generate SQL query: Generated SQL failed validation")
      = true ∧
    (run_nlq_query (Except.ok (toL "Table: t"))
        (fun _ _ => toL "DROP TABLE t") (toL "remove everything")
        (fun _ => ([] : List Nat)) 100).2.1 = 1 ∧
    (run_nlq_query (Except.ok (toL "Table: t"))
        (fun _ _ => toL "DROP TABLE t") (toL "remove everything")
        (fun _ => ([] : List Nat)) 100).2.2 = 0 :=
  generation_validation_failure (toL "Table: t") (toL "remove everything")
    (fun _ _ => toL "DROP TABLE t") (fun _ => ([] : List Nat)) 100 (by decide)


/-! ## C2: behaviour when the store is unreachable -/

/-- C2 (amended): when the store is unreachable the schema fetch does NOT
fail — `get_table_info` catches the failure and returns the string
`Error retrieving schema: <cause>`; the cache layer treats this string as
a successful fetch and stores it together with the current timestamp; and
`naturalLanguageToSQL` raises nothing on this account, proceeding to
generation with the error text as the schema. -/
theorem store_unreachable_degrades (e : List Char)
    (describe : List Char → Option (List (List Char × List Char)))
    (now : Int) (gen : List Char → List Char → List Char)
    (question : List Char)
    (hgen : validate_generated_sql (clean_sql_output
      (gen (toL "Error retrieving schema: " ++ e) question)) = true) :
    get_table_info (Except.error e) describe
        = toL "Error retrieving schema: " ++ e ∧
    get_schema_info ⟨none, none⟩ now
        (Except.ok (get_table_info (Except.error e) describe))
      = (Except.ok (toL "Error retrieving schema: " ++ e),
          ⟨some (toL "Error retrieving schema: " ++ e), some now⟩, true) ∧
    (natural_language_to_sql
        (Except.ok (get_table_info (Except.error e) describe))
        gen question).1
      = Except.ok (clean_sql_output
          (gen (toL "Error retrieving schema: " ++ e) question)) := by
  refine ⟨rfl, rfl, ?_⟩
  have hinfo : get_table_info (Except.error e) describe
      = toL "Error retrieving schema: " ++ e := rfl
  rw [hinfo, natural_language_to_sql]
  rw [if_pos hgen]

/-- Witness for C2 (amended): a concrete unreachable store with a
generator producing valid SQL. -/
theorem store_unreachable_degrades_witness :
    get_table_info (Except.error (toL "boom")) (fun _ => none)
        = toL "Error retrieving schema: boom" ∧
    get_schema_info ⟨none, none⟩ 5
        (Except.ok (get_table_info (Except.error (toL "boom"))
          (fun _ => none)))
      = (Except.ok (toL "Error retrieving schema: boom"),
          ⟨some (toL "Error retrieving schema: boom"), some 5⟩, true) ∧
    (natural_language_to_sql
        (Except.ok (get_table_info (Except.error (toL "boom"))
          (fun _ => none)))
        (fun _ _ => toL "SELECT 1") (toL "count rows")).1
      = Except.ok (clean_sql_output (toL "SELECT 1")) := by
  have h := store_unreachable_degrades (toL "boom") (fun _ => none) 5
    (fun _ _ => toL "SELECT 1") (toL "count rows") (by decide)
  exact ⟨h.1, by
    have h2 := h.2.1
    simpa using h2, h.2.2⟩

/-- Counterexample to C2 as stated: with the store unreachable the fetch
returns an error STRING instead of failing, the cache IS updated with that
string, and `naturalLanguageToSQL` succeeds rather than raising a
generation error. -/
theorem store_unreachable_counterexample :
    get_table_info (Except.error (toL "connection refused")) (fun _ => none)
      = toL "Error retrieving schema: connection refused" ∧
    (get_schema_info ⟨none, none⟩ 0 (Except.ok (get_table_info
        (Except.error (toL "connection refused")) (fun _ => none)))).2.1
      = ⟨some (toL "Error retrieving schema: connection refused"), some 0⟩ ∧
    (natural_language_to_sql (Except.ok (get_table_info
        (Except.error (toL "connection refused")) (fun _ => none)))
        (fun _ _ => toL "SELECT 1") (toL "count rows")).1
      = Except.ok (toL "SELECT 1") := ⟨rfl, rfl, rfl⟩

end Affogato
